import Mathlib

/-!
# Verification of the express view/utils helpers

Shallow embedding of `src/view.ts` (the `View` class: constructor, `lookup`,
`resolve`, `render`, `tryStat`) and of the utility module (`acceptParams`,
`compileETag`, `compileQueryParser`, `compileTrust`).

External Node.js library functions (`path.*`, `fs.statSync`, `require`,
`proxyaddr.compile`, `parseFloat`) are modelled as explicit parameters of the
embedded functions, so every theorem quantifies over their behaviour.
JavaScript strings are modelled as `List Char`; `str.indexOf(c, i)` and
`str.lastIndexOf(c, i)` are embedded as `idxOfFrom` and `lastIdxOfLe` below.
-/

namespace ExpressSpec

/-- First index of `c` in `l` (`none` when absent): embeds the search part of
`String.prototype.indexOf` for a single-character needle. -/
def findIdxOpt (c : Char) : List Char → Option Nat
  | [] => none
  | a :: t => if a = c then some 0 else (findIdxOpt c t).map (· + 1)

/-- Last index of `c` in `l` (`none` when absent). -/
def lastIdxOpt (c : Char) : List Char → Option Nat
  | [] => none
  | a :: t =>
    match lastIdxOpt c t with
    | some j => some (j + 1)
    | none => if a = c then some 0 else none

/-- JS `str.indexOf(c, i)`: first occurrence of `c` at an index `≥ i`,
`none` standing for the JS return value `-1`. -/
def idxOfFrom (s : List Char) (c : Char) (i : Nat) : Option Nat :=
  (findIdxOpt c (s.drop i)).map (· + i)

/-- JS `str.lastIndexOf(c, i)`: last occurrence of `c` at an index `≤ i`,
`none` standing for the JS return value `-1`. -/
def lastIdxOfLe (s : List Char) (c : Char) (i : Nat) : Option Nat :=
  lastIdxOpt c (s.take (i + 1))

/-- JS `str.slice(i, j)` (with `0 ≤ i ≤ j` as used in the source). -/
def jsSlice (s : List Char) (i j : Nat) : String :=
  String.mk ((s.drop i).take (j - i))

/-- Embedding of JS `String.prototype.trim`: drop whitespace from both ends. -/
def jsTrim (l : List Char) : List Char :=
  ((l.dropWhile Char.isWhitespace).reverse.dropWhile Char.isWhitespace).reverse

/-- `jsTrim` lifted to `String`. -/
def jsTrimStr (s : String) : String :=
  String.mk (jsTrim s.data)

theorem findIdxOpt_lt_length {c : Char} {l : List Char} {j : Nat}
    (h : findIdxOpt c l = some j) : j < l.length := by
  induction l generalizing j with
  | nil => simp [findIdxOpt] at h
  | cons a t ih =>
    rw [findIdxOpt] at h
    by_cases hac : a = c
    · simp [hac] at h
      simp [← h]
    · simp [hac] at h
      obtain ⟨k, hk, rfl⟩ := h
      have := ih hk
      simp only [List.length_cons]
      omega

theorem findIdxOpt_mem {c : Char} {l : List Char} {j : Nat}
    (h : findIdxOpt c l = some j) : l[j]? = some c := by
  induction l generalizing j with
  | nil => simp [findIdxOpt] at h
  | cons a t ih =>
    rw [findIdxOpt] at h
    by_cases hac : a = c
    · simp [hac] at h
      subst h
      simp [hac]
    · simp [hac] at h
      obtain ⟨k, hk, rfl⟩ := h
      simpa using ih hk

theorem idxOfFrom_ge {s : List Char} {c : Char} {i j : Nat}
    (h : idxOfFrom s c i = some j) : i ≤ j := by
  rw [idxOfFrom] at h
  obtain ⟨k, _, rfl⟩ := by simpa using h
  omega

theorem idxOfFrom_lt_length {s : List Char} {c : Char} {i j : Nat}
    (h : idxOfFrom s c i = some j) : j < s.length := by
  rw [idxOfFrom] at h
  obtain ⟨k, hk, rfl⟩ := by simpa using h
  have := findIdxOpt_lt_length hk
  have hd : (s.drop i).length = s.length - i := by simp
  omega

theorem idxOfFrom_mem {s : List Char} {c : Char} {i j : Nat}
    (h : idxOfFrom s c i = some j) : s[j]? = some c := by
  rw [idxOfFrom] at h
  obtain ⟨k, hk, rfl⟩ := by simpa using h
  have := findIdxOpt_mem hk
  rw [List.getElem?_drop] at this
  rwa [Nat.add_comm] at this

theorem lastIdxOpt_ge_of_mem {c : Char} {l : List Char} {p : Nat}
    (hp : l[p]? = some c) : ∃ k, lastIdxOpt c l = some k ∧ p ≤ k := by
  induction l generalizing p with
  | nil => simp at hp
  | cons a t ih =>
    cases p with
    | zero =>
      simp at hp
      rw [lastIdxOpt]
      cases h : lastIdxOpt c t with
      | some j => exact ⟨j + 1, rfl, Nat.zero_le _⟩
      | none => exact ⟨0, by simp [hp], le_refl 0⟩
    | succ q =>
      simp at hp
      obtain ⟨k, hk, hqk⟩ := ih hp
      rw [lastIdxOpt, hk]
      exact ⟨k + 1, rfl, by omega⟩

theorem lastIdxOfLe_ge_of_mem {s : List Char} {c : Char} {i p : Nat}
    (hpi : p ≤ i) (hp : s[p]? = some c) :
    ∃ k, lastIdxOfLe s c i = some k ∧ p ≤ k := by
  rw [lastIdxOfLe]
  apply lastIdxOpt_ge_of_mem
  rw [List.getElem?_take_of_lt (by omega)]
  exact hp

/-- JS object assignment `obj[key] = value` on an insertion-ordered
association list: replace in place when the key exists, append otherwise. -/
def assocSet {α : Type} (es : List (String × α)) (k : String) (v : α) :
    List (String × α) :=
  if es.any (fun p => p.1 = k) then es.map (fun p => if p.1 = k then (k, v) else p)
  else es ++ [(k, v)]

/-- JS object property read `obj[key]` on an association list. -/
def assocGet {α : Type} (es : List (String × α)) (k : String) : Option α :=
  (es.find? (fun p => p.1 = k)).map (fun p => p.2)

/-- Result record of `acceptParams`.  The `quality` field holds values of an
abstract type `Q` produced by the `parseFloat` parameter, so the floating-point
arithmetic of the JS builtin stays outside the model; the default quality `1`
is the distinguished value passed to `acceptParams`. -/
structure AcceptRet (Q : Type) where
  value : String
  quality : Q
  params : List (String × String)
deriving DecidableEq

/-- The scan index at the start of the next iteration of the parameter loop of
`acceptParams` (source lines 91-113): on a malformed segment
(`splitIndex > endIndex`) it is `str.lastIndexOf(';', splitIndex - 1) + 1`
(`0` when absent, as JS returns `-1`), otherwise `endIndex + 1`. -/
def acceptNextIndex (s : List Char) (index splitIndex : Nat) : Nat :=
  let endIndex := (idxOfFrom s ';' index).getD s.length
  if endIndex < splitIndex then
    match lastIdxOfLe s ';' (splitIndex - 1) with
    | some k => k + 1
    | none => 0
  else endIndex + 1

theorem acceptNextIndex_gt (s : List Char) (index splitIndex : Nat)
    (hidx : index < s.length) (hsp : idxOfFrom s '=' index = some splitIndex) :
    index < acceptNextIndex s index splitIndex := by
  rw [acceptNextIndex]
  cases hc : idxOfFrom s ';' index with
  | none =>
    have h1 := idxOfFrom_lt_length hsp
    simp only [hc, Option.getD_none]
    rw [if_neg (by omega)]
    omega
  | some colonIdx =>
    have hcge := idxOfFrom_ge hc
    simp only [hc, Option.getD_some]
    by_cases hlt : colonIdx < splitIndex
    · rw [if_pos hlt]
      have hmem := idxOfFrom_mem hc
      obtain ⟨k, hk, hpk⟩ := lastIdxOfLe_ge_of_mem (i := splitIndex - 1) (by omega) hmem
      rw [hk]
      show index < k + 1
      omega
    · rw [if_neg hlt]
      omega

/-- The body of one iteration of the parameter loop of `acceptParams`: on a
well-formed segment (`splitIndex ≤ endIndex`) the pair is recorded — a `q` key
overrides the quality via `parseFloat`, any other key is stored into `params`;
on a malformed segment (`continue` in the source) the state is unchanged. -/
def acceptStep {Q : Type} (pf : String → Q) (s : List Char)
    (index splitIndex : Nat) (st : AcceptRet Q) : AcceptRet Q :=
  let endIndex := (idxOfFrom s ';' index).getD s.length
  if splitIndex ≤ endIndex then
    let key := jsTrimStr (jsSlice s index splitIndex)
    let v := jsTrimStr (jsSlice s (splitIndex + 1) endIndex)
    if key = "q" then { st with quality := pf v }
    else { st with params := assocSet st.params key v }
  else st

/-- The parameter-scanning loop of `acceptParams` (source lines 91-113).
`pf` embeds the JS builtin `parseFloat`. -/
def acceptLoop {Q : Type} (pf : String → Q) (s : List Char) (index : Nat)
    (st : AcceptRet Q) : AcceptRet Q :=
  if hidx : index < s.length then
    match hsp : idxOfFrom s '=' index with
    | none => st
    | some splitIndex =>
      acceptLoop pf s (acceptNextIndex s index splitIndex)
        (acceptStep pf s index splitIndex st)
  else st
termination_by s.length - index
decreasing_by
  have := acceptNextIndex_gt s index splitIndex hidx hsp
  omega

/-- `acceptParams(str)` (source lines 85-116): `one` is the default quality
`1` and `pf` embeds `parseFloat`. -/
def acceptParams {Q : Type} (pf : String → Q) (one : Q) (str : String) :
    AcceptRet Q :=
  let s := str.data
  let index := (idxOfFrom s ';' 0).getD s.length
  acceptLoop pf s index
    { value := jsTrimStr (jsSlice s 0 index), quality := one, params := [] }

theorem acceptParams_start_state {Q : Type} (pf : String → Q) (one : Q)
    (str : String) :
    acceptParams pf one str
      = acceptLoop pf str.data ((idxOfFrom str.data ';' 0).getD str.data.length)
          { value := jsTrimStr (jsSlice str.data 0 ((idxOfFrom str.data ';' 0).getD str.data.length)),
            quality := one, params := [] } := by
  rw [acceptParams]

theorem idxOfFrom_zero (s : List Char) (c : Char) :
    idxOfFrom s c 0 = findIdxOpt c s := by
  rw [idxOfFrom]
  cases h : findIdxOpt c s <;> simp [h]

theorem take_findIdxOpt (c : Char) (l : List Char) :
    l.take ((findIdxOpt c l).getD l.length) = l.takeWhile (fun a => a != c) := by
  induction l with
  | nil => simp
  | cons a t ih =>
    rw [findIdxOpt]
    by_cases hac : a = c
    · subst hac
      simp [List.takeWhile_cons]
    · have hbne : (a != c) = true := by simp [hac]
      cases h : findIdxOpt c t with
      | some j =>
        simp only [if_neg hac, h, Option.map_some', Option.getD_some,
          List.take_succ_cons, List.takeWhile_cons, hbne, if_true]
        rw [← ih, h, Option.getD_some]
      | none =>
        simp only [if_neg hac, h, Option.map_none', Option.getD_none,
          List.length_cons, List.take_succ_cons, List.takeWhile_cons, hbne, if_true]
        rw [← ih, h, Option.getD_none]

theorem acceptStep_value {Q : Type} (pf : String → Q) (s : List Char)
    (index splitIndex : Nat) (st : AcceptRet Q) :
    (acceptStep pf s index splitIndex st).value = st.value := by
  rw [acceptStep]
  dsimp only
  split
  · split <;> rfl
  · rfl

theorem acceptStep_q {Q : Type} (pf : String → Q) (s : List Char)
    (index splitIndex : Nat) (st : AcceptRet Q)
    (hle : splitIndex ≤ (idxOfFrom s ';' index).getD s.length)
    (hq : jsTrimStr (jsSlice s index splitIndex) = "q") :
    acceptStep pf s index splitIndex st
      = { st with
          quality := pf (jsTrimStr (jsSlice s (splitIndex + 1) ((idxOfFrom s ';' index).getD s.length))) } := by
  rw [acceptStep]
  dsimp only
  rw [if_pos hle, if_pos hq]

theorem acceptStep_param {Q : Type} (pf : String → Q) (s : List Char)
    (index splitIndex : Nat) (st : AcceptRet Q)
    (hle : splitIndex ≤ (idxOfFrom s ';' index).getD s.length)
    (hq : jsTrimStr (jsSlice s index splitIndex) ≠ "q") :
    acceptStep pf s index splitIndex st
      = { st with
          params := assocSet st.params (jsTrimStr (jsSlice s index splitIndex)) (jsTrimStr (jsSlice s (splitIndex + 1) ((idxOfFrom s ';' index).getD s.length))) } := by
  rw [acceptStep]
  dsimp only
  rw [if_pos hle, if_neg hq]

theorem acceptLoop_exit {Q : Type} (pf : String → Q) (s : List Char)
    (index : Nat) (st : AcceptRet Q) (h : idxOfFrom s '=' index = none) :
    acceptLoop pf s index st = st := by
  rw [acceptLoop.eq_def]
  by_cases hidx : index < s.length
  · rw [dif_pos hidx]
    split
    · rfl
    · next splitIndex hsp =>
      rw [h] at hsp
      exact Option.noConfusion hsp
  · rw [dif_neg hidx]

theorem acceptLoop_unfold {Q : Type} (pf : String → Q) (s : List Char)
    (index splitIndex : Nat) (st : AcceptRet Q) (hidx : index < s.length)
    (hsp : idxOfFrom s '=' index = some splitIndex) :
    acceptLoop pf s index st
      = acceptLoop pf s (acceptNextIndex s index splitIndex)
          (acceptStep pf s index splitIndex st) := by
  conv_lhs => rw [acceptLoop.eq_def]
  rw [dif_pos hidx]
  split
  · next h => rw [h] at hsp; exact Option.noConfusion hsp
  · next sp h =>
    rw [h] at hsp
    injection hsp with hsp
    rw [hsp]

theorem acceptLoop_value {Q : Type} (pf : String → Q) (s : List Char) :
    ∀ n index st, s.length - index ≤ n →
      (acceptLoop pf s index st).value = (st : AcceptRet Q).value := by
  intro n
  induction n with
  | zero =>
    intro index st hn
    rw [acceptLoop.eq_def, dif_neg (by omega)]
  | succ n ih =>
    intro index st hn
    rw [acceptLoop.eq_def]
    by_cases hidx : index < s.length
    · rw [dif_pos hidx]
      cases hsp : idxOfFrom s '=' index with
      | none => rfl
      | some splitIndex =>
        have hgt := acceptNextIndex_gt s index splitIndex hidx hsp
        rw [ih _ _ (by omega)]
        exact acceptStep_value pf s index splitIndex st
    · rw [dif_neg hidx]

theorem acceptParams_value {Q : Type} (pf : String → Q) (one : Q)
    (str : String) :
    (acceptParams pf one str).value
      = jsTrimStr (String.mk (str.data.takeWhile (fun a => a != ';'))) := by
  rw [acceptParams_start_state,
    acceptLoop_value pf str.data str.data.length _ _ (Nat.sub_le _ _)]
  rw [jsSlice, List.drop_zero, Nat.sub_zero, idxOfFrom_zero, take_findIdxOpt]

/-- C7: for every input string the `acceptParams` tokenizer terminates: after
the initial value segment, each iteration of the parameter-scanning loop either
exits (no further `=`) or strictly increases the scan index, so the loop runs
at most a linear number of iterations; the result always has `value` set to
the trimmed text before the first `;`, quality defaulting to `1` (the `one`
argument, overridden via `parseFloat` by a `q` parameter), and all other
`key=value` pairs collected into `params`. -/
theorem acceptParams_spec_C7 {Q : Type} (pf : String → Q) (one : Q)
    (str : String) :
    ((acceptParams pf one str).value
        = jsTrimStr (String.mk (str.data.takeWhile (fun a => a != ';'))))
    ∧ (∀ index splitIndex, index < str.data.length →
        idxOfFrom str.data '=' index = some splitIndex →
        index < acceptNextIndex str.data index splitIndex)
    ∧ (∀ index st, idxOfFrom str.data '=' index = none →
        acceptLoop pf str.data index st = st)
    ∧ (∀ index splitIndex st, index < str.data.length →
        idxOfFrom str.data '=' index = some splitIndex →
        acceptLoop pf str.data index st
          = acceptLoop pf str.data (acceptNextIndex str.data index splitIndex)
              (acceptStep pf str.data index splitIndex st))
    ∧ (∀ index splitIndex st,
        splitIndex ≤ (idxOfFrom str.data ';' index).getD str.data.length →
        (jsTrimStr (jsSlice str.data index splitIndex) = "q" →
          (acceptStep pf str.data index splitIndex st).quality
            = pf (jsTrimStr (jsSlice str.data (splitIndex + 1) ((idxOfFrom str.data ';' index).getD str.data.length)))
          ∧ (acceptStep pf str.data index splitIndex st).params = st.params)
        ∧ (jsTrimStr (jsSlice str.data index splitIndex) ≠ "q" →
          (acceptStep pf str.data index splitIndex st).params
            = assocSet st.params (jsTrimStr (jsSlice str.data index splitIndex)) (jsTrimStr (jsSlice str.data (splitIndex + 1) ((idxOfFrom str.data ';' index).getD str.data.length)))
          ∧ (acceptStep pf str.data index splitIndex st).quality = st.quality))
    ∧ (idxOfFrom str.data '=' ((idxOfFrom str.data ';' 0).getD str.data.length) = none →
        (acceptParams pf one str).quality = one
          ∧ (acceptParams pf one str).params = []) := by
  refine ⟨acceptParams_value pf one str, ?_, ?_, ?_, ?_, ?_⟩
  · intro index splitIndex hidx hsp
    exact acceptNextIndex_gt str.data index splitIndex hidx hsp
  · intro index st h
    exact acceptLoop_exit pf str.data index st h
  · intro index splitIndex st hidx hsp
    exact acceptLoop_unfold pf str.data index splitIndex st hidx hsp
  · intro index splitIndex st hle
    constructor
    · intro hq
      rw [acceptStep_q pf str.data index splitIndex st hle hq]
      exact ⟨rfl, rfl⟩
    · intro hq
      rw [acceptStep_param pf str.data index splitIndex st hle hq]
      exact ⟨rfl, rfl⟩
  · intro h
    rw [acceptParams_start_state, acceptLoop_exit pf str.data _ _ h]
    exact ⟨rfl, rfl⟩

/-- Witness for C7 on the concrete header `"a; q=0.5"`: the value is the
trimmed text before the first `;`, and the loop index strictly increases at
the malformed first segment (where `splitIndex = 4 > endIndex = 1`). -/
theorem acceptParams_spec_C7_witness :
    (acceptParams (fun v => v) "1" "a; q=0.5").value = "a"
    ∧ 1 < acceptNextIndex "a; q=0.5".data 1 4 := by
  have h := acceptParams_spec_C7 (fun v => v) "1" "a; q=0.5"
  constructor
  · rw [h.1]
    decide
  · exact h.2.1 1 4 (by decide) (by decide)

/-! ## The `View` class (`src/view.ts`)

The Node.js externals are modelled as parameters: the filesystem is a function
from paths to `Option Stat` (`none` embeds a throwing `fs.statSync`), the
`path` module is a record of abstract string functions, and `require(mod).__express`
is a function from module names to `Option E` (`none` embeds an `__express`
export that is not a function). -/

/-- The part of `fs.Stats` the source consults. -/
structure Stat where
  isFile : Bool
deriving DecidableEq

/-- The filesystem as seen through `fs.statSync`: `none` when `statSync` throws. -/
def FileSystem : Type := String → Option Stat

/-- `tryStat` (source lines 204-212): return a stat, maybe. -/
def tryStat (fs : FileSystem) (p : String) : Option Stat := fs p

/-- The functions the source imports from `node:path`, kept abstract. -/
structure PathLib where
  dirname : String → String
  basename : String → String
  basenameExt : String → String → String
  extname : String → String
  join2 : String → String → String
  join3 : String → String → String → String
  resolve2 : String → String → String

/-- JS truthiness of `stat && stat.isFile()`. -/
def statIsFile (st : Option Stat) : Bool :=
  match st with
  | some s => s.isFile
  | none => false

/-- `View.prototype.resolve(dir, file)` (source lines 172-190): try
`join(dir, file)` first, then `join(dir, basename(file, ext), 'index' + ext)`,
returning the first candidate whose stat reports a regular file. -/
def viewResolve (P : PathLib) (fs : FileSystem) (ext dir file : String) :
    Option String :=
  let path1 := P.join2 dir file
  let stat1 := tryStat fs path1
  if statIsFile stat1 then some path1
  else
    let path2 := P.join3 dir (P.basenameExt file ext) ("index" ++ ext)
    let stat2 := tryStat fs path2
    if statIsFile stat2 then some path2
    else none

/-- The body of one iteration of `View.prototype.lookup`: resolve the file
for a single root. -/
def lookupOne (P : PathLib) (fs : FileSystem) (ext root name : String) :
    Option String :=
  let loc := P.resolve2 root name
  viewResolve P fs ext (P.dirname loc) (P.basename loc)

/-- `View.prototype.lookup(name)` (source lines 107-126): scan the roots in
order and stop at the first root whose resolution succeeds. -/
def viewLookup (P : PathLib) (fs : FileSystem) (ext : String)
    (roots : List String) (name : String) : Option String :=
  match roots with
  | [] => none
  | r :: rs =>
    match lookupOne P fs ext r name with
    | some p => some p
    | none => viewLookup P fs ext rs name

/-- The errors the `View` constructor can throw. -/
inductive ViewError where
  | noDefaultEngine
  | noViewEngine (mod : String)
deriving DecidableEq

/-- The message of the thrown `Error` (source lines 64 and 87). -/
def ViewError.message : ViewError → String
  | ViewError.noDefaultEngine =>
      "No default engine was specified and no extension was provided."
  | ViewError.noViewEngine mod =>
      "Module \"" ++ mod ++ "\" does not provide a view engine."

/-- The constructor's `options` argument.  `defaultEngine = ""` models a falsy
(`undefined` or empty) `options.defaultEngine`; `engines` is the shared
`require()` cache keyed by extension; `root` is the list of root directories
(`[].concat(this.root)` in `lookup` accepts a single string or an array). -/
structure ViewOptions (E : Type) where
  defaultEngine : String
  engines : List (String × E)
  root : List String

/-- The fields a constructed `View` instance holds.  `path` is an `Option`
because `lookup` can return `undefined`. -/
structure ViewState (E : Type) where
  defaultEngine : String
  ext : String
  name : String
  root : List String
  engine : E
  path : Option String

/-- `this.ext` after the constructor (source lines 59, 69-76): the extension
of `name`, or else the default engine name with a dot forced in front. -/
def resolvedExt (P : PathLib) (name dflt : String) : String :=
  let ext := P.extname name
  if ext = "" then (if dflt.data.head? ≠ some '.' then "." ++ dflt else dflt)
  else ext

/-- `fileName` after the constructor (source lines 67, 75): `name`, with the
resolved extension appended when `name` had none. -/
def resolvedFileName (P : PathLib) (name dflt : String) : String :=
  if P.extname name = "" then name ++ resolvedExt P name dflt else name

/-- `this.ext.slice(1)`: the module name derived from the extension. -/
def extModule (ext : String) : String := String.mk (ext.data.drop 1)

/-- The `View` constructor (source lines 55-98).  `requireExpress mod` embeds
`require(mod).__express`, with `none` standing for an export that is not a
function.  The result carries the constructed instance together with the
`options` object as it stands after the constructor (its `engines` cache may
have gained an entry). -/
def viewMake {E : Type} (P : PathLib) (fs : FileSystem)
    (requireExpress : String → Option E) (name : String)
    (opts : ViewOptions E) : Except ViewError (ViewState E × ViewOptions E) :=
  if P.extname name = "" ∧ opts.defaultEngine = "" then
    Except.error ViewError.noDefaultEngine
  else
    let ext := resolvedExt P name opts.defaultEngine
    let fileName := resolvedFileName P name opts.defaultEngine
    match assocGet opts.engines ext with
    | some engine =>
      Except.ok
        ({ defaultEngine := opts.defaultEngine, ext := ext, name := name,
           root := opts.root, engine := engine,
           path := viewLookup P fs ext opts.root fileName }, opts)
    | none =>
      match requireExpress (extModule ext) with
      | none => Except.error (ViewError.noViewEngine (extModule ext))
      | some fn =>
        Except.ok
          ({ defaultEngine := opts.defaultEngine, ext := ext, name := name,
             root := opts.root, engine := fn,
             path := viewLookup P fs ext opts.root fileName },
           { opts with engines := assocSet opts.engines ext fn })

/-- The instance `viewMake` builds when the engine it binds is `engine`. -/
def madeState {E : Type} (P : PathLib) (fs : FileSystem) (name : String)
    (opts : ViewOptions E) (engine : E) : ViewState E :=
  { defaultEngine := opts.defaultEngine,
    ext := resolvedExt P name opts.defaultEngine, name := name,
    root := opts.root, engine := engine,
    path := viewLookup P fs (resolvedExt P name opts.defaultEngine) opts.root
      (resolvedFileName P name opts.defaultEngine) }

theorem assocGet_assocSet_self {α : Type} (es : List (String × α)) (k : String)
    (v : α) : assocGet (assocSet es k v) k = some v := by
  rw [assocSet, assocGet]
  by_cases hany : (es.any (fun p => p.1 = k)) = true
  · rw [if_pos hany]
    induction es with
    | nil => simp at hany
    | cons a t ih =>
      rw [List.map_cons]
      by_cases hak : a.1 = k
      · rw [if_pos hak, List.find?_cons_of_pos]
        · rfl
        · simp
      · rw [if_neg hak, List.find?_cons_of_neg]
        · apply ih
          simp only [List.any_cons, Bool.or_eq_true, decide_eq_true_eq] at hany
          rcases hany with h | h
          · exact absurd h hak
          · simpa using h
        · simpa using hak
  · rw [if_neg hany]
    have hnone : List.find? (fun p => decide (p.1 = k)) es = none := by
      rw [List.find?_eq_none]
      intro p hp
      simp only [decide_eq_true_eq]
      intro hpk
      exact hany (List.any_eq_true.mpr ⟨p, hp, by simpa using hpk⟩)
    rw [List.find?_append, hnone]
    simp [List.find?]

theorem viewMake_guard {E : Type} (P : PathLib) (fs : FileSystem)
    (rq : String → Option E) (name : String) (opts : ViewOptions E)
    (h : P.extname name = "" ∧ opts.defaultEngine = "") :
    viewMake P fs rq name opts = Except.error ViewError.noDefaultEngine := by
  rw [viewMake, if_pos h]

theorem viewMake_cached {E : Type} (P : PathLib) (fs : FileSystem)
    (rq : String → Option E) (name : String) (opts : ViewOptions E) (e : E)
    (hguard : ¬(P.extname name = "" ∧ opts.defaultEngine = ""))
    (hc : assocGet opts.engines (resolvedExt P name opts.defaultEngine) = some e) :
    viewMake P fs rq name opts
      = Except.ok (madeState P fs name opts e, opts) := by
  rw [viewMake, if_neg hguard]
  dsimp only
  rw [hc]
  rfl

theorem viewMake_require_fails {E : Type} (P : PathLib) (fs : FileSystem)
    (rq : String → Option E) (name : String) (opts : ViewOptions E)
    (hguard : ¬(P.extname name = "" ∧ opts.defaultEngine = ""))
    (hc : assocGet opts.engines (resolvedExt P name opts.defaultEngine) = none)
    (hr : rq (extModule (resolvedExt P name opts.defaultEngine)) = none) :
    viewMake P fs rq name opts
      = Except.error (ViewError.noViewEngine
          (extModule (resolvedExt P name opts.defaultEngine))) := by
  rw [viewMake, if_neg hguard]
  dsimp only
  rw [hc]
  dsimp only
  rw [hr]

theorem viewMake_require_ok {E : Type} (P : PathLib) (fs : FileSystem)
    (rq : String → Option E) (name : String) (opts : ViewOptions E) (fn : E)
    (hguard : ¬(P.extname name = "" ∧ opts.defaultEngine = ""))
    (hc : assocGet opts.engines (resolvedExt P name opts.defaultEngine) = none)
    (hr : rq (extModule (resolvedExt P name opts.defaultEngine)) = some fn) :
    viewMake P fs rq name opts
      = Except.ok (madeState P fs name opts fn,
          { opts with
            engines := assocSet opts.engines (resolvedExt P name opts.defaultEngine) fn }) := by
  rw [viewMake, if_neg hguard]
  dsimp only
  rw [hc]
  dsimp only
  rw [hr]
  rfl

/-- A concrete path library used by the closed witness theorems. -/
def witPath : PathLib where
  dirname _ := ""
  basename s := s
  basenameExt f _ := f
  extname n := if n = "a.foo" then ".foo" else ""
  join2 _ b := b
  join3 _ b c := b ++ "/" ++ c
  resolve2 a b := a ++ "/" ++ b

/-- A filesystem with a single regular file, for the C2 witness. -/
def fsC2 : FileSystem :=
  fun p => if p = "f/index.x" then some { isFile := true } else none

/-- A filesystem with a single regular file, for the C3 witness. -/
def fsC3 : FileSystem :=
  fun p => if p = "r2/n" then some { isFile := true } else none

/-- C2: for every directory `dir` and file name `file`, `View.resolve` checks
exactly two candidate paths in this order — first `join(dir, file)`, then
`join(dir, basename(file, ext), 'index' + ext)` — it returns the first
candidate whose stat succeeds and reports a regular file, and returns
`undefined` when neither candidate is a regular file. -/
theorem viewResolve_spec_C2 (P : PathLib) (fs : FileSystem)
    (ext dir file : String) :
    (statIsFile (tryStat fs (P.join2 dir file)) = true →
        viewResolve P fs ext dir file = some (P.join2 dir file))
    ∧ (statIsFile (tryStat fs (P.join2 dir file)) = false →
        statIsFile (tryStat fs (P.join3 dir (P.basenameExt file ext) ("index" ++ ext))) = true →
        viewResolve P fs ext dir file
          = some (P.join3 dir (P.basenameExt file ext) ("index" ++ ext)))
    ∧ (statIsFile (tryStat fs (P.join2 dir file)) = false →
        statIsFile (tryStat fs (P.join3 dir (P.basenameExt file ext) ("index" ++ ext))) = false →
        viewResolve P fs ext dir file = none)
    ∧ (∀ p, viewResolve P fs ext dir file = some p →
        (p = P.join2 dir file
          ∨ p = P.join3 dir (P.basenameExt file ext) ("index" ++ ext))
        ∧ statIsFile (tryStat fs p) = true) := by
  refine ⟨?_, ?_, ?_, ?_⟩
  · intro h1
    rw [viewResolve]
    dsimp only
    rw [if_pos h1]
  · intro h1 h2
    rw [viewResolve]
    dsimp only
    rw [if_neg (by rw [h1]; exact Bool.false_ne_true), if_pos h2]
  · intro h1 h2
    rw [viewResolve]
    dsimp only
    rw [if_neg (by rw [h1]; exact Bool.false_ne_true),
      if_neg (by rw [h2]; exact Bool.false_ne_true)]
  · intro p hp
    rw [viewResolve] at hp
    dsimp only at hp
    by_cases h1 : statIsFile (tryStat fs (P.join2 dir file)) = true
    · rw [if_pos h1] at hp
      cases hp
      exact ⟨Or.inl rfl, h1⟩
    · rw [if_neg h1] at hp
      by_cases h2 : statIsFile (tryStat fs (P.join3 dir (P.basenameExt file ext) ("index" ++ ext))) = true
      · rw [if_pos h2] at hp
        cases hp
        exact ⟨Or.inr rfl, h2⟩
      · rw [if_neg h2] at hp
        exact Option.noConfusion hp

/-- Witness for C2: with one regular file at `f/index.x`, the first candidate
misses and the second is returned. -/
theorem viewResolve_spec_C2_witness :
    viewResolve witPath fsC2 ".x" "d" "f" = some "f/index.x" := by
  have h := viewResolve_spec_C2 witPath fsC2 ".x" "d" "f"
  exact h.2.1 (by decide) (by decide)

/-- C3: for every view name and list of root directories, `View.lookup`
examines the roots in order and returns the path from the first root whose
two-candidate resolution succeeds; once found no later root matters, and when
every root fails the result is `undefined`. -/
theorem viewLookup_spec_C3 (P : PathLib) (fs : FileSystem)
    (ext name : String) :
    (∀ rs1 r rs2 p, (∀ r' ∈ rs1, lookupOne P fs ext r' name = none) →
        lookupOne P fs ext r name = some p →
        viewLookup P fs ext (rs1 ++ r :: rs2) name = some p)
    ∧ (∀ roots, (∀ r ∈ roots, lookupOne P fs ext r name = none) →
        viewLookup P fs ext roots name = none) := by
  constructor
  · intro rs1 r rs2 p hfail hr
    induction rs1 with
    | nil =>
      rw [List.nil_append, viewLookup, hr]
    | cons a t ih =>
      have ha : lookupOne P fs ext a name = none := hfail a (List.mem_cons_self a t)
      rw [List.cons_append, viewLookup, ha]
      exact ih (fun r' hr' => hfail r' (List.mem_cons_of_mem a hr'))
  · intro roots hfail
    induction roots with
    | nil => rfl
    | cons a t ih =>
      rw [viewLookup, hfail a (List.mem_cons_self a t)]
      exact ih (fun r hr => hfail r (List.mem_cons_of_mem a hr))

/-- Witness for C3: the file lives under the second root `r2`; the first root
fails, the second is returned. -/
theorem viewLookup_spec_C3_witness :
    viewLookup witPath fsC3 "" ["r1", "r2"] "n" = some "r2/n" := by
  have h := viewLookup_spec_C3 witPath fsC3 "" "n"
  exact h.1 ["r1"] "r2" [] "r2/n" (by decide) (by decide)

/-- C4: the `View` constructor binds the engine lazily by extension: a cache
hit in `options.engines` is used as the engine and the module loader is never
consulted (the result is the same for every `rq`); only on a cache miss is the
module named by the extension without its dot required, and then a non-function
`__express` export (`rq … = none`) raises an `Error`, while a function export
becomes the engine. -/
theorem viewMake_engine_C4 {E : Type} (P : PathLib) (fs : FileSystem)
    (name : String) (opts : ViewOptions E)
    (hguard : ¬(P.extname name = "" ∧ opts.defaultEngine = "")) :
    (∀ e, assocGet opts.engines (resolvedExt P name opts.defaultEngine) = some e →
      ∀ rq : String → Option E,
        viewMake P fs rq name opts = Except.ok (madeState P fs name opts e, opts))
    ∧ (assocGet opts.engines (resolvedExt P name opts.defaultEngine) = none →
      ∀ rq : String → Option E,
        (rq (extModule (resolvedExt P name opts.defaultEngine)) = none →
          viewMake P fs rq name opts
            = Except.error (ViewError.noViewEngine
                (extModule (resolvedExt P name opts.defaultEngine))))
        ∧ (∀ fn, rq (extModule (resolvedExt P name opts.defaultEngine)) = some fn →
          viewMake P fs rq name opts
            = Except.ok (madeState P fs name opts fn,
                { opts with
                  engines := assocSet opts.engines (resolvedExt P name opts.defaultEngine) fn }))) := by
  refine ⟨?_, ?_⟩
  · intro e hc rq
    exact viewMake_cached P fs rq name opts e hguard hc
  · intro hc rq
    refine ⟨?_, ?_⟩
    · intro hr
      exact viewMake_require_fails P fs rq name opts hguard hc hr
    · intro fn hr
      exact viewMake_require_ok P fs rq name opts fn hguard hc hr

/-- Options object for the constructor witnesses: empty engine cache, no
default engine, no roots. -/
def opts4 : ViewOptions Nat where
  defaultEngine := ""
  engines := []
  root := []

/-- A module loader whose `foo` module has a function `__express` export. -/
def rq4 : String → Option Nat :=
  fun m => if m = "foo" then some 7 else none

/-- Witness for C4 at `name = "a.foo"` with an empty engine cache: the `foo`
module is required and its export becomes the engine and the cache entry. -/
theorem viewMake_engine_C4_witness :
    viewMake witPath (fun _ => none) rq4 "a.foo" opts4
      = Except.ok (madeState witPath (fun _ => none) "a.foo" opts4 7,
          { opts4 with engines := assocSet opts4.engines ".foo" 7 }) := by
  have h := viewMake_engine_C4 witPath (fun _ => none) "a.foo" opts4 (by decide)
  exact (h.2 (by decide) rq4).2 7 (by decide)

/-- C5: the constructor throws an `Error` exactly when construction-time
validation fails: when the view name has no extension and no default engine is
configured it throws `'No default engine was specified and no extension was
provided.'` for every filesystem and module loader (so before any file lookup),
and otherwise an error arises exactly when the engine cache misses and the
required module provides no view engine. -/
theorem viewMake_throws_C5 {E : Type} (P : PathLib) (fs : FileSystem)
    (rq : String → Option E) (name : String) (opts : ViewOptions E) :
    ((∃ err, viewMake P fs rq name opts = Except.error err)
      ↔ ((P.extname name = "" ∧ opts.defaultEngine = "")
        ∨ (assocGet opts.engines (resolvedExt P name opts.defaultEngine) = none
            ∧ rq (extModule (resolvedExt P name opts.defaultEngine)) = none)))
    ∧ (P.extname name = "" → opts.defaultEngine = "" →
        ∀ (fs' : FileSystem) (rq' : String → Option E),
          viewMake P fs' rq' name opts = Except.error ViewError.noDefaultEngine)
    ∧ ViewError.noDefaultEngine.message
        = "No default engine was specified and no extension was provided." := by
  refine ⟨?_, ?_, rfl⟩
  · by_cases hguard : P.extname name = "" ∧ opts.defaultEngine = ""
    · rw [viewMake_guard P fs rq name opts hguard]
      exact iff_of_true ⟨ViewError.noDefaultEngine, rfl⟩ (Or.inl hguard)
    · cases hc : assocGet opts.engines (resolvedExt P name opts.defaultEngine) with
      | some e =>
        rw [viewMake_cached P fs rq name opts e hguard hc]
        constructor
        · rintro ⟨err, herr⟩
          exact Except.noConfusion herr
        · rintro (h | ⟨h1, h2⟩)
          · exact absurd h hguard
          · exact Option.noConfusion h1
      | none =>
        cases hr : rq (extModule (resolvedExt P name opts.defaultEngine)) with
        | some fn =>
          rw [viewMake_require_ok P fs rq name opts fn hguard hc hr]
          constructor
          · rintro ⟨err, herr⟩
            exact Except.noConfusion herr
          · rintro (h | ⟨h1, h2⟩)
            · exact absurd h hguard
            · exact Option.noConfusion h2
        | none =>
          rw [viewMake_require_fails P fs rq name opts hguard hc hr]
          exact iff_of_true ⟨_, rfl⟩ (Or.inr ⟨rfl, rfl⟩)
  · intro h1 h2 fs' rq'
    exact viewMake_guard P fs' rq' name opts ⟨h1, h2⟩

/-- C10: when the constructor loads an engine from a module it stores it into
the caller-supplied `options.engines` under the resolved extension — visible
to the caller and found by a subsequent cache probe — and modifies no other
field of the options object; on a cache hit the options object is returned
untouched. -/
theorem viewMake_frame_C10 {E : Type} (P : PathLib) (fs : FileSystem)
    (rq : String → Option E) (name : String) (opts : ViewOptions E)
    (hguard : ¬(P.extname name = "" ∧ opts.defaultEngine = "")) :
    (∀ fn, assocGet opts.engines (resolvedExt P name opts.defaultEngine) = none →
      rq (extModule (resolvedExt P name opts.defaultEngine)) = some fn →
      viewMake P fs rq name opts
        = Except.ok (madeState P fs name opts fn,
            { opts with
              engines := assocSet opts.engines (resolvedExt P name opts.defaultEngine) fn })
      ∧ assocGet (assocSet opts.engines (resolvedExt P name opts.defaultEngine) fn)
          (resolvedExt P name opts.defaultEngine) = some fn
      ∧ ({ opts with
            engines := assocSet opts.engines (resolvedExt P name opts.defaultEngine) fn } : ViewOptions E).defaultEngine
          = opts.defaultEngine
      ∧ ({ opts with
            engines := assocSet opts.engines (resolvedExt P name opts.defaultEngine) fn } : ViewOptions E).root
          = opts.root)
    ∧ (∀ e, assocGet opts.engines (resolvedExt P name opts.defaultEngine) = some e →
      viewMake P fs rq name opts = Except.ok (madeState P fs name opts e, opts)) := by
  constructor
  · intro fn hc hr
    exact ⟨viewMake_require_ok P fs rq name opts fn hguard hc hr,
      assocGet_assocSet_self opts.engines (resolvedExt P name opts.defaultEngine) fn,
      rfl, rfl⟩
  · intro e hc
    exact viewMake_cached P fs rq name opts e hguard hc

/-- Witness for C10: loading the `foo` engine stores it into the shared cache
and a subsequent probe for `.foo` finds it. -/
theorem viewMake_frame_C10_witness :
    assocGet (assocSet opts4.engines ".foo" 9) ".foo" = some 9
      ∧ (viewMake witPath (fun _ => none) (fun m => if m = "foo" then some 9 else none) "a.foo" opts4).isOk = true := by
  have h := viewMake_frame_C10 witPath (fun _ => none)
    (fun m => if m = "foo" then some 9 else none) "a.foo" opts4 (by decide)
  obtain ⟨heq, hget, _, _⟩ := h.1 9 (by decide) (by decide)
  constructor
  · exact hget
  · rw [heq]
    rfl

/-! ## `View.prototype.render` (source lines 136-162)

`render` wraps the user callback in `onRender`, which consults the closed-over
`sync` flag: `sync` is `true` exactly while the engine call is on the stack
(it is set to `false` on the line after the call).  A tiny event model makes
the temporal claim statable: the engine may invoke its completion callback any
number of times, some while the engine call is still running (`preReturn`) and
some after it returned (`postReturn`).  Events record the callback runs the
user observes around the moment `render` returns; `process.nextTick` tasks run
only after the current synchronous execution completes, so the drained queue
appears after `renderReturns`. -/

/-- Observable events around a call to `render`. -/
inductive RenderEvent (α : Type) where
  | renderReturns
  | userCallback (args : List α)
deriving DecidableEq

/-- The state threaded through `render`: the `sync` flag, the pending
`process.nextTick` queue and the trace of events so far. -/
structure RenderState (α : Type) where
  sync : Bool
  tickQueue : List (List α)
  events : List (RenderEvent α)
deriving DecidableEq

/-- `onRender` (source lines 142-159): when `sync` is still `true` the
arguments are copied and the user callback is deferred through
`process.nextTick`; otherwise the user callback is applied immediately. -/
def onRender {α : Type} (st : RenderState α) (args : List α) : RenderState α :=
  if st.sync then
    { st with tickQueue := st.tickQueue ++ [args] }
  else
    { st with events := st.events ++ [RenderEvent.userCallback args] }

/-- A full execution of `render` against an engine that invokes its callback
with the argument lists `preReturn` while the engine call is running and
`postReturn` afterwards: `sync` starts `true`, the engine runs, `sync` is set
to `false` and `render` returns, the `nextTick` queue drains, and later engine
invocations call back directly. -/
def renderExec {α : Type} (preReturn postReturn : List (List α)) :
    List (RenderEvent α) :=
  let st0 : RenderState α := { sync := true, tickQueue := [], events := [] }
  let st1 := preReturn.foldl onRender st0
  let st2 : RenderState α := { sync := false, tickQueue := st1.tickQueue, events := st1.events ++ [RenderEvent.renderReturns] }
  let st3 : RenderState α := { sync := false, tickQueue := [], events := st2.events ++ st2.tickQueue.map RenderEvent.userCallback }
  (postReturn.foldl onRender st3).events

theorem foldl_onRender_sync {α : Type} (l : List (List α)) :
    ∀ st : RenderState α, st.sync = true →
      l.foldl onRender st
        = { st with tickQueue := st.tickQueue ++ l } := by
  induction l with
  | nil => intro st h; simp
  | cons a t ih =>
    intro st h
    rw [List.foldl_cons, onRender, if_pos h,
      ih { st with tickQueue := st.tickQueue ++ [a] } h]
    simp

theorem foldl_onRender_async {α : Type} (l : List (List α)) :
    ∀ st : RenderState α, st.sync = false →
      l.foldl onRender st
        = { st with events := st.events ++ l.map RenderEvent.userCallback } := by
  induction l with
  | nil => intro st h; simp
  | cons a t ih =>
    intro st h
    rw [List.foldl_cons, onRender, if_neg (by rw [h]; exact Bool.false_ne_true),
      ih { st with events := st.events ++ [RenderEvent.userCallback a] } h]
    simp

/-- C1: `View.render` never invokes its callback synchronously.  The whole
trace is `renderReturns` followed by one `userCallback` per engine invocation
carrying exactly the engine's arguments (the in-call ones deferred through the
drained `nextTick` queue, the later ones direct) — in particular no user
callback runs before `render` returns, and while the engine call is on the
stack the sync invocations are only queued (copied), never run. -/
theorem renderExec_spec_C1 {α : Type} (preReturn postReturn : List (List α)) :
    renderExec preReturn postReturn
      = RenderEvent.renderReturns
          :: (preReturn ++ postReturn).map RenderEvent.userCallback
    ∧ preReturn.foldl onRender
        ({ sync := true, tickQueue := [], events := [] } : RenderState α)
        = { sync := true, tickQueue := preReturn, events := [] } := by
  have hs := foldl_onRender_sync preReturn
    ({ sync := true, tickQueue := [], events := [] } : RenderState α) rfl
  constructor
  · rw [renderExec]
    dsimp only
    rw [hs]
    dsimp only
    rw [foldl_onRender_async postReturn _ rfl]
    simp
  · rw [hs]
    rfl

/-! ## The utility module (`compileETag`, `compileQueryParser`, `compileTrust`)

The JS arguments typed `boolean | string | Function` are embedded as the
inductive `SettingVal F` with `F` the type of user-supplied functions.  A
thrown `TypeError` is an `Except.error` carrying the message; the returned
value is an `Option` because the `false` case leaves `fn` `undefined`.  The
library functions the recognized values map to (`wetag`/`etag` built by
`createETagGenerator`, `querystring.parse`, `qs.parse` via
`parseExtendedQueryString`) are external, so the result identifies which of
them was returned. -/

/-- A JS value of type `boolean | string | Function`. -/
inductive SettingVal (F : Type) where
  | fn (f : F)
  | bool (b : Bool)
  | str (s : String)
deriving DecidableEq

/-- What `compileETag` can return: the caller's function unchanged, or one of
the two generators built by `createETagGenerator` (`{weak: true}` for `wetag`,
`{weak: false}` for `etag`). -/
inductive ETagFn (F : Type) where
  | original (f : F)
  | wetag
  | etag
deriving DecidableEq

/-- `compileETag(val)` (source lines 126-148): the `switch` sends `true` and
`'weak'` to `wetag`, `false` to `undefined`, `'strong'` to `etag`, and throws
on everything else. -/
def compileETag {F : Type} (val : SettingVal F) :
    Except String (Option (ETagFn F)) :=
  match val with
  | SettingVal.fn f => Except.ok (some (ETagFn.original f))
  | SettingVal.bool b =>
    if b then Except.ok (some ETagFn.wetag) else Except.ok none
  | SettingVal.str s =>
    if s = "weak" then Except.ok (some ETagFn.wetag)
    else if s = "strong" then Except.ok (some ETagFn.etag)
    else Except.error ("unknown value for etag function: " ++ s)

/-- What `compileQueryParser` can return: the caller's function unchanged,
`querystring.parse`, or `parseExtendedQueryString` (`qs.parse` with
`allowPrototypes`). -/
inductive QueryParserFn (F : Type) where
  | original (f : F)
  | querystringParse
  | extendedParse
deriving DecidableEq

/-- `compileQueryParser(val)` (source lines 158-180): the `switch` sends
`true` and `'simple'` to `querystring.parse`, `false` to `undefined`,
`'extended'` to `parseExtendedQueryString`, and throws on everything else. -/
def compileQueryParser {F : Type} (val : SettingVal F) :
    Except String (Option (QueryParserFn F)) :=
  match val with
  | SettingVal.fn f => Except.ok (some (QueryParserFn.original f))
  | SettingVal.bool b =>
    if b then Except.ok (some QueryParserFn.querystringParse) else Except.ok none
  | SettingVal.str s =>
    if s = "simple" then Except.ok (some QueryParserFn.querystringParse)
    else if s = "extended" then Except.ok (some QueryParserFn.extendedParse)
    else Except.error ("unknown value for query parser function: " ++ s)

/-- The recognized non-function configuration values of `compileETag`. -/
def etagRecognized {F : Type} (v : SettingVal F) : Prop :=
  v = SettingVal.bool true ∨ v = SettingVal.bool false
    ∨ v = SettingVal.str "weak" ∨ v = SettingVal.str "strong"

/-- The recognized non-function configuration values of `compileQueryParser`. -/
def queryParserRecognized {F : Type} (v : SettingVal F) : Prop :=
  v = SettingVal.bool true ∨ v = SettingVal.bool false
    ∨ v = SettingVal.str "simple" ∨ v = SettingVal.str "extended"

theorem compileETag_error_iff {F : Type} (v : SettingVal F) :
    (∃ m, compileETag v = Except.error m)
      ↔ ((∀ f, v ≠ SettingVal.fn f) ∧ ¬etagRecognized v) := by
  rcases v with f | b | s
  · simp [compileETag]
  · rcases b <;> simp [compileETag, etagRecognized]
  · by_cases h1 : s = "weak"
    · subst h1
      simp [compileETag, etagRecognized]
    · by_cases h2 : s = "strong"
      · subst h2
        simp [compileETag, etagRecognized]
      · simp [compileETag, etagRecognized, h1, h2]

theorem compileQueryParser_error_iff {F : Type} (v : SettingVal F) :
    (∃ m, compileQueryParser v = Except.error m)
      ↔ ((∀ f, v ≠ SettingVal.fn f) ∧ ¬queryParserRecognized v) := by
  rcases v with f | b | s
  · simp [compileQueryParser]
  · rcases b <;> simp [compileQueryParser, queryParserRecognized]
  · by_cases h1 : s = "simple"
    · subst h1
      simp [compileQueryParser, queryParserRecognized]
    · by_cases h2 : s = "extended"
      · subst h2
        simp [compileQueryParser, queryParserRecognized]
      · simp [compileQueryParser, queryParserRecognized, h1, h2]

/-- Counterexample to C6 as stated: `false` is one of the listed recognized
configuration values of both compilers, yet for it neither returns "the
corresponding parser or ETag generator" — the result is `undefined` (`none`),
not a function. -/
theorem compile_false_counterexample_C6 :
    etagRecognized (SettingVal.bool (F := Unit) false)
    ∧ compileETag (SettingVal.bool (F := Unit) false) = Except.ok none
    ∧ (¬∃ g, compileETag (SettingVal.bool (F := Unit) false) = Except.ok (some g))
    ∧ queryParserRecognized (SettingVal.bool (F := Unit) false)
    ∧ compileQueryParser (SettingVal.bool (F := Unit) false) = Except.ok none
    ∧ (¬∃ g, compileQueryParser (SettingVal.bool (F := Unit) false) = Except.ok (some g)) := by
  refine ⟨Or.inr (Or.inl rfl), rfl, ?_, Or.inr (Or.inl rfl), rfl, ?_⟩
  · rintro ⟨g, hg⟩
    simp [compileETag] at hg
  · rintro ⟨g, hg⟩
    simp [compileQueryParser] at hg

/-- C6 (amended): each of `compileETag` and `compileQueryParser` throws a
TypeError exactly when its argument is neither a function nor one of its
recognized configuration values (`true`, `false`, `'weak'`, `'strong'` for
`compileETag`; `true`, `false`, `'simple'`, `'extended'` for
`compileQueryParser`); a function argument is returned itself; the recognized
values other than `false` return the corresponding ETag generator or parser,
and `false` returns `undefined` instead of a function. -/
theorem compile_settings_spec_C6 {F : Type} :
    (∀ v : SettingVal F,
      (∃ m, compileETag v = Except.error m)
        ↔ ((∀ f, v ≠ SettingVal.fn f) ∧ ¬etagRecognized v))
    ∧ (∀ v : SettingVal F,
      (∃ m, compileQueryParser v = Except.error m)
        ↔ ((∀ f, v ≠ SettingVal.fn f) ∧ ¬queryParserRecognized v))
    ∧ (∀ f : F,
      compileETag (SettingVal.fn f) = Except.ok (some (ETagFn.original f))
      ∧ compileQueryParser (SettingVal.fn f)
          = Except.ok (some (QueryParserFn.original f)))
    ∧ compileETag (SettingVal.bool (F := F) true) = Except.ok (some ETagFn.wetag)
    ∧ compileETag (SettingVal.str (F := F) "weak") = Except.ok (some ETagFn.wetag)
    ∧ compileETag (SettingVal.str (F := F) "strong") = Except.ok (some ETagFn.etag)
    ∧ compileETag (SettingVal.bool (F := F) false) = Except.ok none
    ∧ compileQueryParser (SettingVal.bool (F := F) true)
        = Except.ok (some QueryParserFn.querystringParse)
    ∧ compileQueryParser (SettingVal.str (F := F) "simple")
        = Except.ok (some QueryParserFn.querystringParse)
    ∧ compileQueryParser (SettingVal.str (F := F) "extended")
        = Except.ok (some QueryParserFn.extendedParse)
    ∧ compileQueryParser (SettingVal.bool (F := F) false) = Except.ok none := by
  refine ⟨compileETag_error_iff, compileQueryParser_error_iff,
    fun f => ⟨rfl, rfl⟩, rfl, ?_, ?_, rfl, rfl, ?_, ?_, rfl⟩
  · rw [compileETag]
    rfl
  · rw [compileETag]
    rfl
  · rw [compileQueryParser]
    rfl
  · rw [compileQueryParser]
    rfl

/-- C9: called with `false`, both `compileETag` and `compileQueryParser`
return `undefined` rather than a function and do not throw, so `false`
disables the feature, while every other value that is neither a function nor
recognized is rejected with a TypeError. -/
theorem compile_false_disables_C9 {F : Type} :
    compileETag (SettingVal.bool (F := F) false) = Except.ok none
    ∧ compileQueryParser (SettingVal.bool (F := F) false) = Except.ok none
    ∧ (∀ v : SettingVal F, (∀ f, v ≠ SettingVal.fn f) → ¬etagRecognized v →
        ∃ m, compileETag v = Except.error m)
    ∧ (∀ v : SettingVal F, (∀ f, v ≠ SettingVal.fn f) → ¬queryParserRecognized v →
        ∃ m, compileQueryParser v = Except.error m) := by
  refine ⟨rfl, rfl, ?_, ?_⟩
  · intro v h1 h2
    exact (compileETag_error_iff v).mpr ⟨h1, h2⟩
  · intro v h1 h2
    exact (compileQueryParser_error_iff v).mpr ⟨h1, h2⟩

/-- A JS value of type `boolean | string | number | string[] | Function` as
passed to `compileTrust`.  JS numbers appear only through the `i < val`
comparison against a hop count, so they are embedded as integers. -/
inductive TrustVal (F : Type) where
  | fn (f : F)
  | bool (b : Bool)
  | num (n : Int)
  | str (s : String)
  | arr (l : List String)

/-- A proxy-trust predicate: address and hop index to boolean. -/
def TrustFn : Type := String → Nat → Bool

/-- JS `s.split(',')` on characters. -/
def splitOnComma : List Char → List (List Char)
  | [] => [[]]
  | a :: t =>
    let r := splitOnComma t
    if a = ',' then [] :: r
    else (a :: r.headI) :: r.tail

/-- `compileTrust(val)` (source lines 190-210): `pc` embeds
`proxyaddr.compile`.  A function is returned unchanged; `true` yields the
constant-true predicate; a number `n` yields the hop-count predicate
`i < n`; a string is split on commas with each entry trimmed before
compilation; an array is compiled as is; `false` (falsy) is compiled as the
empty list (`val || []`). -/
def compileTrust (pc : List String → TrustFn) : TrustVal TrustFn → TrustFn
  | TrustVal.fn f => f
  | TrustVal.bool true => fun _ _ => true
  | TrustVal.num n => fun _ i => decide ((i : Int) < n)
  | TrustVal.str s => pc ((splitOnComma s.data).map (fun e => String.mk (jsTrim e)))
  | TrustVal.arr l => pc l
  | TrustVal.bool false => pc []

/-- C8: `compileTrust` maps each configuration value to a trust predicate: a
function argument is returned unchanged; `true` yields a predicate that is
true for every address and hop index; a number `n` yields a predicate that is
true exactly when the hop index `i` satisfies `i < n`; and a string is split
on commas with each entry trimmed before being compiled into an address
matcher. -/
theorem compileTrust_spec_C8 (pc : List String → TrustFn) :
    (∀ f, compileTrust pc (TrustVal.fn f) = f)
    ∧ (∀ a i, compileTrust pc (TrustVal.bool true) a i = true)
    ∧ (∀ n a i, compileTrust pc (TrustVal.num n) a i = true ↔ (i : Int) < n)
    ∧ (∀ s, compileTrust pc (TrustVal.str s)
        = pc ((splitOnComma s.data).map (fun e => String.mk (jsTrim e)))) := by
  refine ⟨fun f => rfl, fun a i => rfl, ?_, fun s => rfl⟩
  intro n a i
  simp [compileTrust]
